import Mathlib

/-!
Verification of the forex_evaluation inference-evaluation core.

The Python sources under `app/` and `scripts/` are shallowly embedded here:
text is `List Char` (Python `str` is a sequence of code points), Python
`float` arithmetic on the small decimal constants of this code base is
modelled exactly over `ℚ`, database rows are Lean structures, and the
persistent store is a `List` of rows in iteration order.  Python's stable
`sorted` (and the modelled `ORDER BY` of the store) is embedded as a
structural stable insertion sort `sSort`, which produces the same output as
any stable sort for a total preorder.
-/

namespace ForexEval

/-! ## Basic text utilities -/

/-- Lowercasing of a code-point sequence, as Python `str.lower` acts on the
ASCII letters appearing in this code base (the Japanese keywords used by the
sources have no case). -/
def lcList (s : List Char) : List Char := s.map Char.toLower

/-- Uppercasing, as Python `str.upper` on the characters relevant here. -/
def upList (s : List Char) : List Char := s.map Char.toUpper

/-- Does `hay` start with `needle` (exact character equality)? -/
def listStarts : List Char → List Char → Bool
  | [], _ => true
  | _ :: _, [] => false
  | a :: as, b :: bs => a == b && listStarts as bs

/-- Python's substring test `needle in hay`. -/
def containsSub (needle : List Char) : List Char → Bool
  | [] => needle.isEmpty
  | b :: bs => listStarts needle (b :: bs) || containsSub needle bs

/-- Number of positions of `hay` at which `needle` occurs (used only to state
the spec's per-occurrence reading of the Confidence Estimator). -/
def countOccur (needle : List Char) : List Char → Nat
  | [] => if needle.isEmpty then 1 else 0
  | b :: bs => (if listStarts needle (b :: bs) then 1 else 0) + countOccur needle bs

/-! ## Confidence Estimator — `InferenceEngine._estimate_confidence`
(`app/engine/inference_engine.py`, lines 82-122) -/

/-- The positive-sentiment vocabulary of `_estimate_confidence`. -/
def positive_keywords : List (List Char) :=
  ["強く推奨".data, "確信".data, "明確".data, "強気".data, "strong".data,
   "confident".data, "clear".data, "bullish".data, "bearish".data, "高い確率".data]

/-- The uncertainty vocabulary of `_estimate_confidence`. -/
def negative_keywords : List (List Char) :=
  ["不確実".data, "疑問".data, "uncertain".data, "maybe".data, "possibly".data,
   "might".data, "could".data, "可能性".data]

/-- Binary minimum on `ℚ` written out as a conditional (Python `min` on two
floats), so that proofs can reason about it by cases. -/
def rmin (a b : ℚ) : ℚ := if a ≤ b then a else b

/-- Binary maximum on `ℚ` (Python `max` on two floats). -/
def rmax (a b : ℚ) : ℚ := if b ≤ a then a else b

/-- Clamp to the unit interval, Python `max(0.0, min(1.0, x))`. -/
def clamp01 (q : ℚ) : ℚ := rmax 0 (rmin 1 q)

/-- The context window `text[max(0, start_pos - 100) : min(len(text), end_pos + 100)]`.
Natural-number truncated subtraction coincides with Python's `max(0, start_pos - 100)`
for the non-negative indices Python passes. -/
def contextWindow (text : List Char) (start_pos end_pos : Nat) : List Char :=
  (text.drop (start_pos - 100)).take (min text.length (end_pos + 100) - (start_pos - 100))

/-- The keyword-scanning core of `_estimate_confidence`, applied to the
(already sliced) context.  The source lowercases the context once, then for
each keyword *present* in it adds 0.2 resp. subtracts 0.15, and clamps. -/
def confidenceOfContext (rawContext : List Char) : ℚ :=
  let context := lcList rawContext
  let afterPos := positive_keywords.foldl
    (fun acc kw => if containsSub kw context then acc + 1/5 else acc) (1/2)
  let afterNeg := negative_keywords.foldl
    (fun acc kw => if containsSub kw context then acc - 3/20 else acc) afterPos
  clamp01 afterNeg

/-- `InferenceEngine._estimate_confidence(text, start_pos, end_pos)`. -/
def estimate_confidence (text : List Char) (start_pos end_pos : Nat) : ℚ :=
  confidenceOfContext (contextWindow text start_pos end_pos)

/-- The Confidence Estimator as worded by the spec (§4.2): 0.2 is added *per
occurrence* of a positive phrase and 0.15 subtracted per occurrence of an
uncertainty phrase.  This definition follows the spec's words, to be compared
against `estimate_confidence`, which follows the source. -/
def confidenceSpecOccurrences (text : List Char) (start_pos end_pos : Nat) : ℚ :=
  let context := lcList (contextWindow text start_pos end_pos)
  let posOcc : Nat := (positive_keywords.map (fun kw => countOccur kw context)).sum
  let negOcc : Nat := (negative_keywords.map (fun kw => countOccur kw context)).sum
  clamp01 (1/2 + (1/5) * (posOcc : ℚ) - (3/20) * (negOcc : ℚ))

/-- Number of positive keywords present in a (lowercased) context. -/
def posHits (context : List Char) : Nat :=
  positive_keywords.countP (fun kw => containsSub kw (lcList context))

/-- Number of uncertainty keywords present in a (lowercased) context. -/
def negHits (context : List Char) : Nat :=
  negative_keywords.countP (fun kw => containsSub kw (lcList context))

/-! ## Logic Evaluator — `EvaluationEngine._evaluate_logic`
(`app/engine/evaluation_engine.py`, lines 66-136) -/

/-- Binary minimum on `ℤ` written as a conditional (Python `min`). -/
def imin (a b : ℤ) : ℤ := if a ≤ b then a else b

/-- Binary maximum on `ℤ` written as a conditional (Python `max`). -/
def imax (a b : ℤ) : ℤ := if b ≤ a then a else b

/-- The market-analysis vocabulary of `_evaluate_logic`. -/
def market_keywords : List (List Char) :=
  ["trend".data, "support".data, "resistance".data, "volume".data, "momentum".data,
   "トレンド".data, "サポート".data, "レジスタンス".data, "出来高".data, "勢い".data]

/-- The technical-indicator vocabulary of `_evaluate_logic`. -/
def technical_keywords : List (List Char) :=
  ["rsi".data, "macd".data, "moving average".data, "bollinger".data, "ema".data, "sma".data,
   "adx".data, "stochastic".data, "移動平均".data, "ボリンジャー".data]

/-- The risk-management vocabulary of `_evaluate_logic`. -/
def risk_keywords : List (List Char) :=
  ["stop loss".data, "risk".data, "position size".data, "drawdown".data,
   "ストップロス".data, "リスク".data, "ポジションサイズ".data, "ドローダウン".data]

/-- `sum(1 for keyword in market_keywords if keyword in response)`. -/
def marketCount (response : List Char) : Nat :=
  market_keywords.countP (fun kw => containsSub kw response)

/-- Keyword hits against the technical-indicator vocabulary. -/
def technicalCount (response : List Char) : Nat :=
  technical_keywords.countP (fun kw => containsSub kw response)

/-- Keyword hits against the risk-management vocabulary. -/
def riskCount (response : List Char) : Nat :=
  risk_keywords.countP (fun kw => containsSub kw response)

/-- The explanatory-clarity condition of `_evaluate_logic`:
`len(response) >= 200 and ('because' in response or 'なぜなら' in response or 'ため' in response)`. -/
def clarityCond (response : List Char) : Prop :=
  200 ≤ response.length ∧
    (containsSub "because".data response = true ∨
     containsSub "なぜなら".data response = true ∨
     containsSub "ため".data response = true)

instance (response : List Char) : Decidable (clarityCond response) :=
  inferInstanceAs (Decidable (200 ≤ response.length ∧
    (containsSub "because".data response = true ∨
     containsSub "なぜなら".data response = true ∨
     containsSub "ため".data response = true)))

/-- `EvaluationEngine._evaluate_logic`: lowercases prompt and response,
scores the response against the four keyword checks, clamps to [1,5] at the
end, and joins the four comments with "; ".  The lowercased prompt is
computed but never used by the source. -/
def evaluate_logic (prompt raw_response : List Char) : ℤ × String :=
  let _prompt := lcList prompt
  let response := lcList raw_response
  let score0 : ℤ := 1
  let score1 := if 3 ≤ marketCount response then score0 + 1 else score0
  let comments1 : List String :=
    if 3 ≤ marketCount response then ["市場分析が十分に行われている"]
    else if 1 ≤ marketCount response then ["基本的な市場分析が含まれている"]
    else ["市場分析が不十分"]
  let score2 := if 2 ≤ technicalCount response then score1 + 1 else score1
  let comments2 :=
    if 2 ≤ technicalCount response then comments1 ++ ["複数のテクニカル指標を考慮している"]
    else if 1 ≤ technicalCount response then comments1 ++ ["テクニカル指標を考慮している"]
    else comments1 ++ ["テクニカル指標の言及が不足"]
  let score3 := if 2 ≤ riskCount response then score2 + 1 else score2
  let comments3 :=
    if 2 ≤ riskCount response then comments2 ++ ["リスク管理が十分に考慮されている"]
    else if 1 ≤ riskCount response then comments2 ++ ["基本的なリスク管理が考慮されている"]
    else comments2 ++ ["リスク管理の言及が不足"]
  let score4 := if clarityCond response then score3 + 1 else score3
  let comments4 :=
    if clarityCond response then comments3 ++ ["推論の根拠が明確に説明されている"]
    else if 100 ≤ response.length then comments3 ++ ["推論の説明が含まれている"]
    else comments3 ++ ["推論の説明が不十分"]
  let score := imin 5 (imax 1 score4)
  (score, String.intercalate "; " comments4)


/-! ## Stable sorting

CPython's `sorted` is a stable sort; for a total preorder every stable sort
produces the same output, so the structural insertion sort below is an exact
model of `sorted` (with `reverse=True` expressed through the comparison), and
of the modelled `ORDER BY` of the persistent store. -/

/-- Stable insertion: place `x` before the first element `y` with `le x y`;
elements comparing equal to `x` stay before it, which is exactly Python's
stability for an element arriving later in the input. -/
def sIns (le : α → α → Bool) (x : α) : List α → List α
  | [] => [x]
  | y :: ys => if le x y then x :: y :: ys else y :: sIns le x ys

/-- Stable insertion sort. -/
def sSort (le : α → α → Bool) : List α → List α
  | [] => []
  | x :: xs => sIns le x (sSort le xs)

/-! ## Temporal Matcher — `crud.find_closest_inference_for_trade`
(`app/crud.py`, lines 54-67) -/

/-- An `TradeInference` row as the Temporal Matcher sees it: a key and the
`inference_time` timestamp, modelled as integer seconds. -/
structure TradeInference where
  id : Nat
  inference_time : ℤ
deriving DecidableEq

/-- Membership of a row in the window
`[trade_time - time_window_hours, trade_time + time_window_hours]`
(`timedelta(hours=h)` is `h * 3600` seconds). -/
def inWindow (trade_time time_window_hours : ℤ) (i : TradeInference) : Bool :=
  decide (trade_time - time_window_hours * 3600 ≤ i.inference_time) &&
    decide (i.inference_time ≤ trade_time + time_window_hours * 3600)

/-- Absolute distance from a row's timestamp to the trade timestamp, the
`ORDER BY abs(inference_time - trade_time)` sort key. -/
def timeDist (trade_time : ℤ) (i : TradeInference) : Nat :=
  (i.inference_time - trade_time).natAbs

/-- `crud.find_closest_inference_for_trade`: filter the store to the window,
order by absolute distance to the trade time (stably, keeping store iteration
order between ties), and take the first row if any. -/
def find_closest_inference_for_trade (db : List TradeInference)
    (trade_time : ℤ) (time_window_hours : ℤ) : Option TradeInference :=
  let filtered := db.filter (inWindow trade_time time_window_hours)
  (sSort (fun a b => decide (timeDist trade_time a ≤ timeDist trade_time b)) filtered).head?


/-! ## Potential-Outcome Estimator —
`EvaluationEngine._calculate_potential_profit_loss`
(`app/engine/evaluation_engine.py`, lines 138-162) -/

/-- A structured action dict as stored on an inference; the estimator only
reads the (possibly missing) `confidence` entry. -/
structure InferredAction where
  confidence : Option ℚ

/-- `EvaluationEngine._calculate_potential_profit_loss`, over the
`inferred_actions` field (`None` or a list).  The source guards twice
against an absent/empty list; `first_action.get('confidence', 0.5)`
defaults a missing confidence to 0.5. -/
def calculate_potential_profit_loss (inferred_actions : Option (List InferredAction)) : ℚ :=
  match inferred_actions with
  | none => 0
  | some actions =>
    if actions.isEmpty then 0
    else if actions.isEmpty || actions.length == 0 then 0
    else
      match actions with
      | [] => 0
      | first_action :: _ =>
        let confidence := first_action.confidence.getD (1/2)
        let base_return : ℚ := 1/100
        let potential_return := base_return * confidence
        let risk_adjustment : ℚ := 4/5
        potential_return * risk_adjustment * 10000

/-! ## Performance Aggregator A — `crud.get_performance_summary`
(`app/crud.py`, lines 112-147) -/

/-- An `ActualTrade` row as the aggregator sees it: the trade timestamp
(integer seconds) and the nullable realized profit/loss. -/
structure ActualTrade where
  trade_time : ℤ
  profit_loss : Option ℚ
deriving DecidableEq

/-- A Python float that may be `float('inf')`: the aggregator's
profit-factor is the only place the code base produces an infinity. -/
inductive PyFloat where
  | val : ℚ → PyFloat
  | inf : PyFloat
deriving DecidableEq

/-- The dict returned by `get_performance_summary`. -/
structure PerformanceSummary where
  total_trades : Nat
  winning_trades : Nat
  losing_trades : Nat
  win_rate : ℚ
  total_profit_loss : ℚ
  average_profit : ℚ
  average_loss : ℚ
  profit_factor : PyFloat
deriving DecidableEq

/-- The all-zero summary returned for an empty settled-trade set. -/
def zeroSummary : PerformanceSummary :=
  { total_trades := 0, winning_trades := 0, losing_trades := 0, win_rate := 0,
    total_profit_loss := 0, average_profit := 0, average_loss := 0,
    profit_factor := .val 0 }

/-- The store query of `get_performance_summary`: trades in
`[start_date, end_date]` whose `profit_loss` is not NULL. -/
def settledTradesInPeriod (db : List ActualTrade) (start_date end_date : ℤ) : List ActualTrade :=
  db.filter (fun t =>
    decide (start_date ≤ t.trade_time) && decide (t.trade_time ≤ end_date) &&
      t.profit_loss.isSome)

/-- Python `abs` on a rational, written as a conditional. -/
def qabs (q : ℚ) : ℚ := if q < 0 then -q else q

/-- `crud.get_performance_summary`.  The retained trades all have a non-NULL
`profit_loss`, so reading it with a default of 0 is exact. -/
def get_performance_summary (db : List ActualTrade) (start_date end_date : ℤ) :
    PerformanceSummary :=
  let trades := settledTradesInPeriod db start_date end_date
  if trades.isEmpty then zeroSummary
  else
    let pls := trades.map (fun t => t.profit_loss.getD 0)
    let total_trades := trades.length
    let winning_trades := (pls.filter (fun x => decide (0 < x))).length
    let losing_trades := (pls.filter (fun x => decide (x < 0))).length
    let total_profit_loss := pls.sum
    let profits := pls.filter (fun x => decide (0 < x))
    let losses := pls.filter (fun x => decide (x < 0))
    let average_profit := if profits.isEmpty then 0 else profits.sum / profits.length
    let average_loss := if losses.isEmpty then 0 else losses.sum / losses.length
    let total_profits := profits.sum
    let total_losses := qabs losses.sum
    let profit_factor : PyFloat :=
      if 0 < total_losses then .val (total_profits / total_losses) else .inf
    { total_trades := total_trades, winning_trades := winning_trades,
      losing_trades := losing_trades,
      win_rate := if 0 < total_trades then (winning_trades : ℚ) / total_trades * 100 else 0,
      total_profit_loss := total_profit_loss, average_profit := average_profit,
      average_loss := average_loss, profit_factor := profit_factor }


/-! ## Evaluation Orchestrator —
`EvaluationEngine._analyze_actual_performance` (lines 164-184) and
`EvaluationEngine._generate_evaluation_summary` (lines 186-223) -/

/-- Round to the nearest integer, halves to the even neighbour, the rounding
CPython's fixed-point float formatting performs at these magnitudes. -/
def roundHalfEven (q : ℚ) : ℤ :=
  let f := ⌊q⌋
  let frac := q - (f : ℚ)
  if frac < 1/2 then f
  else if 1/2 < frac then f + 1
  else if f % 2 = 0 then f else f + 1

/-- Left-pad a digit string with zeros to the given width. -/
def padZeros (width : Nat) (s : String) : String :=
  String.mk (List.replicate (width - s.length) '0') ++ s

/-- Python `f"{q:.precf}"` modelled exactly over `ℚ`. -/
def fmtFixed (prec : Nat) (q : ℚ) : String :=
  let scaled := q * ((10 ^ prec : Nat) : ℚ)
  let n := roundHalfEven scaled
  let m := n.natAbs
  let intPart := toString (m / 10 ^ prec)
  let fracPart := padZeros prec (toString (m % 10 ^ prec))
  (if n < 0 then "-" else "") ++ intPart ++ (if prec = 0 then "" else "." ++ fracPart)

/-- `EvaluationEngine._analyze_actual_performance`: textual analysis of the
related realized trades; when none of them is settled the count is reported
as unsettled and no win rate is computed. -/
def analyze_actual_performance (actual_trades : List ActualTrade) : String :=
  if actual_trades.isEmpty then "関連する実績取引がありません"
  else
    let total_pnl :=
      ((actual_trades.filter (fun t => t.profit_loss.isSome)).map
        (fun t => t.profit_loss.getD 0)).sum
    let completed_trades := actual_trades.filter (fun t => t.profit_loss.isSome)
    if completed_trades.isEmpty then
      "実行された取引数: " ++ toString actual_trades.length ++ "件（未決済）"
    else
      let winning_trades :=
        (completed_trades.filter (fun t => decide (0 < t.profit_loss.getD 0))).length
      let win_rate : ℚ := (winning_trades : ℚ) / (completed_trades.length : ℚ) * 100
      "実行取引: " ++ toString actual_trades.length ++ "件, 決済済み: " ++
        toString completed_trades.length ++ "件, " ++ "勝率: " ++ fmtFixed 1 win_rate ++
        "%, 総損益: " ++ fmtFixed 2 total_pnl

/-- `EvaluationEngine._generate_evaluation_summary`: builds `summary_parts`
in order (logic bucket, potential bucket, optional realized analysis,
optional recommendation) and joins with ". ", appending a final "."; the
`inference` parameter of the source method is never read and is omitted. -/
def generate_evaluation_summary (logic_score : ℤ) (potential_pnl : ℚ)
    (actual_trades : List ActualTrade) (actual_analysis : String) : String :=
  let parts1 : List String :=
    [if 4 ≤ logic_score then "推論ロジックは優秀"
     else if 3 ≤ logic_score then "推論ロジックは良好"
     else "推論ロジックに改善の余地あり"]
  let parts2 := parts1 ++
    [if 50 < potential_pnl then "高い利益ポテンシャル"
     else if 0 < potential_pnl then "正の利益ポテンシャル"
     else "リスクを伴う推論"]
  let parts3 :=
    if actual_trades.isEmpty then parts2 else parts2 ++ ["実績: " ++ actual_analysis]
  let parts4 :=
    if logic_score < 3 then parts3 ++ ["市場分析とリスク管理の強化を推奨"] else parts3
  String.intercalate ". " parts4 ++ "."

/-! ## Performance Aggregator B — `ReportGenerator._get_top_performing_inferences`
(`scripts/generate_report.py`, lines 146-188) -/

/-- A `TradeEvaluation` row as the ranker sees it.  The summary is kept as a
code-point sequence for the 100-character truncation. -/
structure TradeEvaluation where
  inference_id : ℤ
  logic_evaluation_score : Option ℤ
  potential_profit_loss : Option ℚ
  evaluation_summary : List Char

/-- One output dict of `_get_top_performing_inferences`. -/
structure TopPerformer where
  inference_id : ℤ
  logic_score : Option ℤ
  potential_pnl : Option ℚ
  summary : List Char

/-- Python `max` over a list of rationals (0 for the empty list, which the
source never reaches: the candidate set is checked non-empty first). -/
def listMaxQ : List ℚ → ℚ
  | [] => 0
  | x :: xs => xs.foldl rmax x

/-- Python `min` over a list of rationals. -/
def listMinQ : List ℚ → ℚ
  | [] => 0
  | x :: xs => xs.foldl rmin x

/-- The candidate restriction: evaluations having both a logic score and a
potential-profit-loss value. -/
def scoredEvaluations (evaluations : List TradeEvaluation) : List TradeEvaluation :=
  evaluations.filter
    (fun ev => ev.logic_evaluation_score.isSome && ev.potential_profit_loss.isSome)

/-- The `composite_score` closure: 0.6 × (logicScore − 1)/4 + 0.4 × the
min/max-normalized potential PnL over the candidate set (0.5 when the set
has equal min and max).  Fields are non-null for every candidate, so the
0-defaults are never exercised. -/
def composite_score (scored : List TradeEvaluation) (evaluation : TradeEvaluation) : ℚ :=
  let logic_weight : ℚ := 3/5
  let pnl_weight : ℚ := 2/5
  let normalized_logic := (((evaluation.logic_evaluation_score.getD 0 : ℤ) : ℚ) - 1) / 4
  let max_pnl := listMaxQ (scored.map (fun ev => ev.potential_profit_loss.getD 0))
  let min_pnl := listMinQ (scored.map (fun ev => ev.potential_profit_loss.getD 0))
  let normalized_pnl :=
    if max_pnl ≠ min_pnl then
      (evaluation.potential_profit_loss.getD 0 - min_pnl) / (max_pnl - min_pnl)
    else 1/2
  logic_weight * normalized_logic + pnl_weight * normalized_pnl

/-- `e.evaluation_summary[:100] + "..."` when longer than 100 code points. -/
def truncatedSummary (s : List Char) : List Char :=
  if 100 < s.length then s.take 100 ++ "...".data else s

/-- The per-row output dict of the ranker. -/
def topProjection (ev : TradeEvaluation) : TopPerformer :=
  ⟨ev.inference_id, ev.logic_evaluation_score, ev.potential_profit_loss,
    truncatedSummary ev.evaluation_summary⟩

/-- `ReportGenerator._get_top_performing_inferences`: restrict, sort stably
by descending composite score, take the first `limit`, project. -/
def get_top_performing_inferences (evaluations : List TradeEvaluation) (limit : Nat) :
    List TopPerformer :=
  let scored := scoredEvaluations evaluations
  if scored.isEmpty then []
  else
    let top_evaluations :=
      (sSort (fun a b => decide (composite_score scored b ≤ composite_score scored a))
        scored).take limit
    top_evaluations.map topProjection


/-! ## Action Extractor — `InferenceEngine.parse_inference_response`
(`app/engine/inference_engine.py`, lines 22-80)

The four `re.IGNORECASE` patterns of `action_patterns` are embedded as
deterministic matchers.  Each pattern is an alternation of literals, `\\s+`
or `\\s*` gaps and a `[A-Z]{6}` group; within every pattern the character
classes on the two sides of each greedy gap are disjoint and no two
alternation branches share a first character, so the backtracking regex
engine and these deterministic matchers find the same matches.  `finditer`
scans left to right and resumes after each non-overlapping match. -/

/-- Python's `\\s` on the whitespace characters of the Basic Latin range. -/
def isPySpace (c : Char) : Bool :=
  c == ' ' || c == '\t' || c == '\n' || c == '\r' || c == '\x0b' || c == '\x0c'

/-- The `[A-Z]` class under `re.IGNORECASE`: an ASCII letter. -/
def isAsciiLetterCI (c : Char) : Bool :=
  (decide (65 ≤ c.toNat) && decide (c.toNat ≤ 90)) ||
    (decide (97 ≤ c.toNat) && decide (c.toNat ≤ 122))

/-- An upper-case ASCII letter. -/
def isUpperAlpha (c : Char) : Bool :=
  decide (65 ≤ c.toNat) && decide (c.toNat ≤ 90)

/-- Case-insensitive literal match; returns the captured source characters
and the rest of the input. -/
def matchLitCI : List Char → List Char → Option (List Char × List Char)
  | [], s => some ([], s)
  | _ :: _, [] => none
  | w :: ws, c :: cs =>
    if w.toLower == c.toLower then
      match matchLitCI ws cs with
      | some (g, r) => some (c :: g, r)
      | none => none
    else none

/-- First-match alternation over literal words (sound here because no two
alternatives share a first character). -/
def matchAlt (ws : List (List Char)) (s : List Char) : Option (List Char × List Char) :=
  match ws with
  | [] => none
  | w :: rest =>
    match matchLitCI w s with
    | some gr => some gr
    | none => matchAlt rest s

/-- Greedy `\\s*`. -/
def dropSpaces : List Char → List Char
  | [] => []
  | c :: cs => if isPySpace c then dropSpaces cs else c :: cs

/-- Greedy `\\s+`. -/
def matchSpaces1 : List Char → Option (List Char)
  | [] => none
  | c :: cs => if isPySpace c then some (dropSpaces cs) else none

/-- `[A-Z]{n}` under `IGNORECASE`: exactly `n` ASCII letters, captured. -/
def matchLetters : Nat → List Char → Option (List Char × List Char)
  | 0, s => some ([], s)
  | _ + 1, [] => none
  | n + 1, c :: cs =>
    if isAsciiLetterCI c then
      match matchLetters n cs with
      | some (g, r) => some (c :: g, r)
      | none => none
    else none

/-- Pattern 1, `(BUY|SELL)\\s+([A-Z]{6})`. -/
def tryPat1 (s : List Char) : Option ((List Char × List Char) × List Char) :=
  match matchAlt ["BUY".data, "SELL".data] s with
  | none => none
  | some (g0, r1) =>
    match matchSpaces1 r1 with
    | none => none
    | some r2 =>
      match matchLetters 6 r2 with
      | none => none
      | some (g1, r3) => some ((g0, g1), r3)

/-- Pattern 2, `([A-Z]{6})\\s+(BUY|SELL)`. -/
def tryPat2 (s : List Char) : Option ((List Char × List Char) × List Char) :=
  match matchLetters 6 s with
  | none => none
  | some (g0, r1) =>
    match matchSpaces1 r1 with
    | none => none
    | some r2 =>
      match matchAlt ["BUY".data, "SELL".data] r2 with
      | none => none
      | some (g1, r3) => some ((g0, g1), r3)

/-- Pattern 3, `ポジション\\s*:\\s*(買い|売り)\\s*([A-Z]{6})`. -/
def tryPat3 (s : List Char) : Option ((List Char × List Char) × List Char) :=
  match matchLitCI "ポジション".data s with
  | none => none
  | some (_, r1) =>
    match matchLitCI ":".data (dropSpaces r1) with
    | none => none
    | some (_, r2) =>
      match matchAlt ["買い".data, "売り".data] (dropSpaces r2) with
      | none => none
      | some (g0, r3) =>
        match matchLetters 6 (dropSpaces r3) with
        | none => none
        | some (g1, r4) => some ((g0, g1), r4)

/-- Pattern 4, `([A-Z]{6})\\s*を\\s*(買い|売り)`. -/
def tryPat4 (s : List Char) : Option ((List Char × List Char) × List Char) :=
  match matchLetters 6 s with
  | none => none
  | some (g0, r1) =>
    match matchLitCI "を".data (dropSpaces r1) with
    | none => none
    | some (_, r2) =>
      match matchAlt ["買い".data, "売り".data] (dropSpaces r2) with
      | none => none
      | some (g1, r3) => some ((g0, g1), r3)

/-- `re.finditer`: try the pattern at each position, emit `(groups, start,
end)` and resume after the match.  The fuel argument (initially the text
length) only bounds the recursion: every step consumes at least one
character, so the bound is never hit. -/
def finditerAux (f : List Char → Option ((List Char × List Char) × List Char)) :
    Nat → List Char → Nat → List ((List Char × List Char) × Nat × Nat)
  | 0, _, _ => []
  | _ + 1, [], _ => []
  | fuel + 1, c :: cs, pos =>
    match f (c :: cs) with
    | some (g, rest) =>
      let len := (c :: cs).length - rest.length
      (g, pos, pos + len) :: finditerAux f fuel (cs.drop (len - 1)) (pos + len)
    | none => finditerAux f fuel cs (pos + 1)

/-- All matches of one pattern over the text. -/
def finditer (f : List Char → Option ((List Char × List Char) × List Char))
    (text : List Char) : List ((List Char × List Char) × Nat × Nat) :=
  finditerAux f text.length text 0

/-- One entry of the intermediate `actions` list. -/
structure RawAction where
  action : List Char
  pair : List Char
  confidence : ℚ
  position_in_text : Nat

/-- One entry of the returned `unique_actions` list. -/
structure OutAction where
  action : List Char
  pair : List Char
  confidence : ℚ

/-- The re-projection performed when an action is appended to
`unique_actions` (dropping `position_in_text`). -/
def projAction (a : RawAction) : OutAction := ⟨a.action, a.pair, a.confidence⟩

/-- The `if/elif` chain resolving which group is the action token and which
the instrument, returning `(action, pair)`; `continue` is `none`. -/
def resolveGroups (g0 g1 : List Char) : Option (List Char × List Char) :=
  if upList g0 == "BUY".data || upList g0 == "SELL".data then
    some (upList g0, upList g1)
  else if upList g1 == "BUY".data || upList g1 == "SELL".data then
    some (upList g1, upList g0)
  else if g0 == "買い".data || g0 == "ロング".data then
    some ("BUY".data, upList g1)
  else if g0 == "売り".data || g0 == "ショート".data then
    some ("SELL".data, upList g1)
  else none

/-- Group resolution, the `if pair and len(pair) == 6` guard, and the
confidence estimate for one regex match. -/
def processMatch (text : List Char) (g : List Char × List Char) (ms me : Nat) :
    Option RawAction :=
  match resolveGroups g.1 g.2 with
  | none => none
  | some (action, pair) =>
    if !pair.isEmpty && pair.length == 6 then
      some ⟨action, pair, estimate_confidence text ms me, ms⟩
    else none

/-- The actions contributed by one pattern, in text order. -/
def matchesFor (f : List Char → Option ((List Char × List Char) × List Char))
    (text : List Char) : List RawAction :=
  (finditer f text).filterMap (fun m => processMatch text m.1 m.2.1 m.2.2)

/-- The `actions` list: all four patterns in order, matches in text order. -/
def rawActions (text : List Char) : List RawAction :=
  matchesFor tryPat1 text ++ matchesFor tryPat2 text ++
    matchesFor tryPat3 text ++ matchesFor tryPat4 text

/-- The dedup loop over the sorted actions with its `seen_pairs` set. -/
def dedupByPair : List RawAction → List (List Char) → List OutAction
  | [], _ => []
  | a :: rest, seen =>
    if a.pair ∈ seen then dedupByPair rest seen
    else projAction a :: dedupByPair rest (a.pair :: seen)

/-- `InferenceEngine.parse_inference_response`: collect matches from every
pattern, sort stably by descending confidence, and keep the first action per
currency pair. -/
def parse_inference_response (text : List Char) : List OutAction :=
  dedupByPair
    (sSort (fun a b => decide (b.confidence ≤ a.confidence)) (rawActions text)) []

/-- The two group shapes a pattern can produce: a captured `[A-Z]{6}` group
(six ASCII letters). -/
def Alpha6 (g : List Char) : Prop :=
  g.length = 6 ∧ ∀ c ∈ g, isAsciiLetterCI c = true


/-! # Theorems

Helper lemmas first, then the claim theorems. -/

/-! ## Lemmas about the Confidence Estimator -/

theorem foldl_if_add (l : List (List Char)) (p : List Char → Bool) (c init : ℚ) :
    l.foldl (fun acc kw => if p kw then acc + c else acc) init
      = init + c * (l.countP p : ℚ) := by
  induction l generalizing init with
  | nil => simp
  | cons x xs ih =>
    by_cases h : p x
    · simp only [List.foldl_cons, h, if_true, ih, List.countP_cons_of_pos _ _ h]
      push_cast
      ring
    · simp [h, ih, List.countP_cons_of_neg _ _ h]

theorem foldl_if_sub (l : List (List Char)) (p : List Char → Bool) (c init : ℚ) :
    l.foldl (fun acc kw => if p kw then acc - c else acc) init
      = init - c * (l.countP p : ℚ) := by
  induction l generalizing init with
  | nil => simp
  | cons x xs ih =>
    by_cases h : p x
    · simp only [List.foldl_cons, h, if_true, ih, List.countP_cons_of_pos _ _ h]
      push_cast
      ring
    · simp [h, ih, List.countP_cons_of_neg _ _ h]

theorem confidenceOfContext_eq (c : List Char) :
    confidenceOfContext c
      = clamp01 (1/2 + (1/5) * (posHits c : ℚ) - (3/20) * (negHits c : ℚ)) := by
  simp only [confidenceOfContext, posHits, negHits]
  rw [foldl_if_add, foldl_if_sub]

theorem clamp01_nonneg (q : ℚ) : 0 ≤ clamp01 q := by
  unfold clamp01 rmax rmin
  split_ifs <;> linarith

theorem clamp01_le_one (q : ℚ) : clamp01 q ≤ 1 := by
  unfold clamp01 rmax rmin
  split_ifs <;> linarith

theorem clamp01_mono {a b : ℚ} (h : a ≤ b) : clamp01 a ≤ clamp01 b := by
  unfold clamp01 rmax rmin
  split_ifs <;> linarith

/-- C1: the Confidence Estimator starts at 0.5, adds 0.2 for each
positive-sentiment vocabulary phrase that is present in the 100-character
context window (at most one increment per phrase, regardless of how many
times the phrase occurs), subtracts 0.15 for each uncertainty vocabulary
phrase that is present (at most one decrement per phrase), and clamps the
final value to [0.0, 1.0].  A window containing two occurrences of the same
positive phrase therefore contributes only 0.2 for that phrase, not 0.4. -/
theorem confidence_presence_semantics (text : List Char) (start_pos end_pos : Nat) :
    estimate_confidence text start_pos end_pos
      = clamp01 (1/2 + (1/5) * (posHits (contextWindow text start_pos end_pos) : ℚ)
          - (3/20) * (negHits (contextWindow text start_pos end_pos) : ℚ)) := by
  unfold estimate_confidence
  exact confidenceOfContext_eq _

/-- C1 counterexample: on a window containing two occurrences of the positive
phrase "strong" (and no other vocabulary phrase), the source's estimator
yields 0.5 + 0.2 = 0.7, while the spec's per-occurrence reading demands
0.5 + 2·0.2 = 0.9; the two disagree. -/
theorem confidence_occurrence_counterexample :
    estimate_confidence "strong strong buy usdjpy".data 14 24 = 7/10 ∧
    confidenceSpecOccurrences "strong strong buy usdjpy".data 14 24 = 9/10 ∧
    estimate_confidence "strong strong buy usdjpy".data 14 24
      ≠ confidenceSpecOccurrences "strong strong buy usdjpy".data 14 24 := by
  have h1 : estimate_confidence "strong strong buy usdjpy".data 14 24 = 7/10 := by
    have he : estimate_confidence "strong strong buy usdjpy".data 14 24
        = confidenceOfContext (contextWindow "strong strong buy usdjpy".data 14 24) := rfl
    rw [he, confidenceOfContext_eq]
    have hp : posHits (contextWindow "strong strong buy usdjpy".data 14 24) = 1 := by decide
    have hn : negHits (contextWindow "strong strong buy usdjpy".data 14 24) = 0 := by decide
    rw [hp, hn]
    norm_num [clamp01, rmax, rmin]
  have h2 : confidenceSpecOccurrences "strong strong buy usdjpy".data 14 24 = 9/10 := by
    simp only [confidenceSpecOccurrences]
    have hp : (positive_keywords.map
        (fun kw => countOccur kw (lcList (contextWindow "strong strong buy usdjpy".data 14 24)))).sum
          = 2 := by decide
    have hn : (negative_keywords.map
        (fun kw => countOccur kw (lcList (contextWindow "strong strong buy usdjpy".data 14 24)))).sum
          = 0 := by decide
    rw [hp, hn]
    norm_num [clamp01, rmax, rmin]
  refine ⟨h1, h2, ?_⟩
  rw [h1, h2]
  norm_num

/-- C9: the estimated confidence always lies in [0,1]; and on the scanning
core it is monotonically non-decreasing when positive-sentiment phrases are
added to the context window while the presence of every uncertainty phrase is
unchanged (other words held fixed). -/
theorem confidence_range_and_monotone :
    (∀ (text : List Char) (start_pos end_pos : Nat),
        0 ≤ estimate_confidence text start_pos end_pos ∧
        estimate_confidence text start_pos end_pos ≤ 1) ∧
    (∀ c1 c2 : List Char,
        (∀ kw ∈ positive_keywords,
          containsSub kw (lcList c1) = true → containsSub kw (lcList c2) = true) →
        (∀ kw ∈ negative_keywords,
          containsSub kw (lcList c1) = containsSub kw (lcList c2)) →
        confidenceOfContext c1 ≤ confidenceOfContext c2) := by
  constructor
  · intro text s e
    unfold estimate_confidence
    rw [confidenceOfContext_eq]
    exact ⟨clamp01_nonneg _, clamp01_le_one _⟩
  · intro c1 c2 hpos hneg
    rw [confidenceOfContext_eq, confidenceOfContext_eq]
    apply clamp01_mono
    have h1 : posHits c1 ≤ posHits c2 :=
      List.countP_mono_left (fun kw hk h => hpos kw hk h)
    have h2 : negHits c1 = negHits c2 :=
      List.countP_congr (fun kw hk => by rw [hneg kw hk])
    have h1q : (posHits c1 : ℚ) ≤ (posHits c2 : ℚ) := by exact_mod_cast h1
    rw [h2]
    linarith

/-- C9 witness: a concrete application of the monotonicity statement, adding
the positive phrase "strong" to a context already containing "maybe". -/
theorem confidence_monotone_witness :
    confidenceOfContext "maybe hello".data ≤ confidenceOfContext "maybe strong hello".data := by
  apply confidence_range_and_monotone.2
  · decide
  · decide

set_option maxHeartbeats 1000000 in
/-- C3: the logic score equals 1 plus one point per passed check (market ≥3,
technical ≥2, risk ≥2, clarity), the final clamp to [1,5] never changes that
value, the score always lies in [1,5], and the empty response scores 1 with
all four insufficient-category comments joined by "; ". -/
theorem logic_score_structure (prompt raw_response : List Char) :
    ((evaluate_logic prompt raw_response).1
      = 1 + (if 3 ≤ marketCount (lcList raw_response) then 1 else 0)
          + (if 2 ≤ technicalCount (lcList raw_response) then 1 else 0)
          + (if 2 ≤ riskCount (lcList raw_response) then 1 else 0)
          + (if clarityCond (lcList raw_response) then 1 else 0)) ∧
    1 ≤ (evaluate_logic prompt raw_response).1 ∧
    (evaluate_logic prompt raw_response).1 ≤ 5 ∧
    evaluate_logic prompt []
      = (1, "市場分析が不十分; テクニカル指標の言及が不足; リスク管理の言及が不足; 推論の説明が不十分") := by
  refine ⟨?_, ?_, ?_, ?_⟩
  · simp only [evaluate_logic, imin, imax]
    split_ifs <;> omega
  · simp only [evaluate_logic, imin, imax]
    split_ifs <;> omega
  · simp only [evaluate_logic, imin, imax]
    split_ifs <;> omega
  · have h : evaluate_logic prompt [] = evaluate_logic [] [] := rfl
    rw [h]
    decide

/-- C10: the Logic Evaluator's result depends only on the response text; two
different prompts with the same response produce the identical score and
comment. -/
theorem logic_score_prompt_irrelevant (p1 p2 r : List Char) :
    evaluate_logic p1 r = evaluate_logic p2 r := rfl

/-! ## Stable sort lemmas -/

theorem mem_sIns {α : Type} (le : α → α → Bool) (x a : α) (l : List α) :
    a ∈ sIns le x l ↔ a = x ∨ a ∈ l := by
  induction l with
  | nil => simp [sIns]
  | cons y ys ih =>
    simp only [sIns]
    split_ifs with h
    · simp [List.mem_cons]
    · simp only [List.mem_cons, ih]
      tauto

theorem sIns_ne_nil {α : Type} (le : α → α → Bool) (x : α) (l : List α) :
    sIns le x l ≠ [] := by
  cases l with
  | nil => simp [sIns]
  | cons y ys =>
    simp only [sIns]
    split_ifs <;> simp

theorem sSort_eq_nil {α : Type} (le : α → α → Bool) (l : List α) :
    sSort le l = [] ↔ l = [] := by
  cases l with
  | nil => simp [sSort]
  | cons x xs => simp [sSort, sIns_ne_nil]

theorem mem_sSort {α : Type} (le : α → α → Bool) (a : α) (l : List α) :
    a ∈ sSort le l ↔ a ∈ l := by
  induction l with
  | nil => simp [sSort]
  | cons x xs ih => simp [sSort, mem_sIns, ih]

theorem sIns_pairwise {α : Type} (le : α → α → Bool)
    (htrans : ∀ a b c, le a b = true → le b c = true → le a c = true)
    (htotal : ∀ a b, le a b = true ∨ le b a = true)
    (x : α) {l : List α} (h : l.Pairwise (fun a b => le a b = true)) :
    (sIns le x l).Pairwise (fun a b => le a b = true) := by
  induction l with
  | nil => simp [sIns]
  | cons y ys ih =>
    rw [List.pairwise_cons] at h
    simp only [sIns]
    split_ifs with hxy
    · refine List.Pairwise.cons ?_ (List.Pairwise.cons h.1 h.2)
      intro b hb
      rcases List.mem_cons.mp hb with rfl | hb
      · exact hxy
      · exact htrans _ _ _ hxy (h.1 b hb)
    · refine List.Pairwise.cons ?_ (ih h.2)
      intro b hb
      rcases (mem_sIns le x b ys).mp hb with heq | hb
      · subst heq
        rcases htotal b y with hx | hy
        · exact absurd hx hxy
        · exact hy
      · exact h.1 b hb

theorem sSort_pairwise {α : Type} (le : α → α → Bool)
    (htrans : ∀ a b c, le a b = true → le b c = true → le a c = true)
    (htotal : ∀ a b, le a b = true ∨ le b a = true) (l : List α) :
    (sSort le l).Pairwise (fun a b => le a b = true) := by
  induction l with
  | nil => simp [sSort]
  | cons x xs ih => exact sIns_pairwise le htrans htotal x ih

theorem sIns_filter {α : Type} (le : α → α → Bool) (p : α → Bool)
    (hp : ∀ a b, p a = true → p b = true → le a b = true) (x : α) (l : List α) :
    (sIns le x l).filter p = if p x then x :: l.filter p else l.filter p := by
  induction l with
  | nil => simp [sIns, List.filter_cons]
  | cons y ys ih =>
    by_cases hxy : le x y = true
    · simp only [sIns, if_pos hxy]
      rw [List.filter_cons]
    · simp only [sIns, if_neg hxy]
      rw [List.filter_cons, ih]
      rcases Bool.eq_false_or_eq_true (p x) with hpx | hpx
      · have hpy : p y = false := by
          rcases Bool.eq_false_or_eq_true (p y) with h | h
          · exact absurd (hp x y hpx h) hxy
          · exact h
        simp [hpx, hpy, List.filter_cons]
      · simp [hpx, List.filter_cons]

theorem sSort_filter {α : Type} (le : α → α → Bool) (p : α → Bool)
    (hp : ∀ a b, p a = true → p b = true → le a b = true) (l : List α) :
    (sSort le l).filter p = l.filter p := by
  induction l with
  | nil => simp [sSort]
  | cons x xs ih =>
    simp only [sSort]
    rw [sIns_filter le p hp, ih, ← List.filter_cons]

/-! ## Temporal Matcher theorems -/

/-- C2: `find_closest_inference_for_trade` returns none exactly when no
stored row lies in `[trade_time − window, trade_time + window]`; a returned
row is a stored in-window row of minimum absolute distance to the trade
time, and among the in-window rows at that distance it is the first in store
iteration order; and for the concrete store with rows at −1h and +30min and
a 2h window around 0 it returns the +30min row. -/
theorem find_nearest_spec :
    (∀ (db : List TradeInference) (T w : ℤ),
      find_closest_inference_for_trade db T w = none ↔
        ∀ j ∈ db, inWindow T w j = false) ∧
    (∀ (db : List TradeInference) (T w : ℤ) (i : TradeInference),
      find_closest_inference_for_trade db T w = some i →
        i ∈ db ∧ inWindow T w i = true ∧
        (∀ j ∈ db, inWindow T w j = true → timeDist T i ≤ timeDist T j) ∧
        ((db.filter (inWindow T w)).filter
            (fun j => decide (timeDist T j = timeDist T i))).head? = some i) ∧
    find_closest_inference_for_trade [⟨1, -3600⟩, ⟨2, 1800⟩] 0 2 = some ⟨2, 1800⟩ := by
  have htrans : ∀ (T : ℤ) (a b c : TradeInference),
      decide (timeDist T a ≤ timeDist T b) = true →
      decide (timeDist T b ≤ timeDist T c) = true →
      decide (timeDist T a ≤ timeDist T c) = true := by
    intro T a b c hab hbc
    simp only [decide_eq_true_eq] at *
    omega
  have htotal : ∀ (T : ℤ) (a b : TradeInference),
      decide (timeDist T a ≤ timeDist T b) = true ∨
      decide (timeDist T b ≤ timeDist T a) = true := by
    intro T a b
    simp only [decide_eq_true_eq]
    omega
  refine ⟨?_, ?_, ?_⟩
  · intro db T w
    simp only [find_closest_inference_for_trade, List.head?_eq_none_iff, sSort_eq_nil,
      List.filter_eq_nil_iff, Bool.not_eq_true]
  · intro db T w i h
    simp only [find_closest_inference_for_trade] at h
    rcases List.head?_eq_some_iff.mp h with ⟨rest, hrest⟩
    have hmem : i ∈ sSort (fun a b => decide (timeDist T a ≤ timeDist T b))
        (db.filter (inWindow T w)) := by
      rw [hrest]; exact List.mem_cons_self _ _
    rw [mem_sSort, List.mem_filter] at hmem
    refine ⟨hmem.1, hmem.2, ?_, ?_⟩
    · intro j hj hjw
      have hjmem : j ∈ sSort (fun a b => decide (timeDist T a ≤ timeDist T b))
          (db.filter (inWindow T w)) := by
        rw [mem_sSort, List.mem_filter]
        exact ⟨hj, hjw⟩
      rw [hrest] at hjmem
      rcases List.mem_cons.mp hjmem with rfl | hjmem
      · exact le_refl _
      · have := List.rel_of_pairwise_cons
          (hrest ▸ sSort_pairwise _ (htrans T) (htotal T) (db.filter (inWindow T w))) hjmem
        simpa using this
    · have hfeq := sSort_filter (fun a b => decide (timeDist T a ≤ timeDist T b))
        (fun j => decide (timeDist T j = timeDist T i))
        (by
          intro a b ha hb
          simp only [decide_eq_true_eq] at *
          omega)
        (db.filter (inWindow T w))
      rw [← hfeq, hrest, List.filter_cons]
      simp
  · decide

/-! ## Potential-Outcome Estimator theorems -/

/-- C6: the Potential-Outcome Estimator returns 0.0 for an absent or empty
action list; otherwise it returns 0.01 × (first action's confidence) × 0.8 ×
10000, and the entries after the first are never consulted. -/
theorem potential_pnl_spec :
    calculate_potential_profit_loss none = 0 ∧
    calculate_potential_profit_loss (some []) = 0 ∧
    (∀ (a : InferredAction) (rest : List InferredAction) (c : ℚ),
      a.confidence = some c →
      calculate_potential_profit_loss (some (a :: rest)) = 1/100 * c * (4/5) * 10000) ∧
    (∀ (a : InferredAction) (rest1 rest2 : List InferredAction),
      calculate_potential_profit_loss (some (a :: rest1))
        = calculate_potential_profit_loss (some (a :: rest2))) := by
  refine ⟨rfl, rfl, ?_, ?_⟩
  · intro a rest c hc
    simp [calculate_potential_profit_loss, hc]
  · intro a r1 r2
    simp [calculate_potential_profit_loss]

/-- C6 witness: a single action of confidence 0.8 yields
0.01 × 0.8 × 0.8 × 10000. -/
theorem potential_pnl_witness :
    calculate_potential_profit_loss (some [⟨some (4/5)⟩]) = 1/100 * (4/5) * (4/5) * 10000 :=
  potential_pnl_spec.2.2.1 ⟨some (4/5)⟩ [] (4/5) rfl

/-! ## Performance Aggregator theorems -/

theorem sum_lt_zero_of_all_neg {m : List ℚ} (hne : m ≠ []) (hall : ∀ x ∈ m, x < 0) :
    m.sum < 0 := by
  induction m with
  | nil => exact absurd rfl hne
  | cons a as ih =>
    have ha : a < 0 := hall a (List.mem_cons_self _ _)
    rcases eq_or_ne as [] with h | h
    · simp [h, ha]
    · have := ih h (fun x hx => hall x (List.mem_cons_of_mem _ hx))
      rw [List.sum_cons]
      linarith

theorem neg_filter_eq_nil_of_sum_eq_zero {l : List ℚ}
    (h : (l.filter (fun x => decide (x < 0))).sum = 0) :
    l.filter (fun x => decide (x < 0)) = [] := by
  by_contra hne
  have hall : ∀ x ∈ l.filter (fun x => decide (x < 0)), x < 0 := by
    intro x hx
    have := (List.mem_filter.mp hx).2
    simpa using this
  have := sum_lt_zero_of_all_neg hne hall
  rw [h] at this
  exact lt_irrefl 0 this

/-- C5: an input with no settled trade (no non-null realized profit/loss)
yields the all-zero stats record with profit_factor 0.0 rather than an
error; trades with realized profits [500, 500] and loss [-1000] yield
total = 3, winning = 2, losing = 1, win_rate = 200/3 (≈ 66.67),
total_profit_loss = 0, profit_factor = 1; and when the sum of negative
profit/losses is exactly zero while at least one settled trade exists, the
profit_factor is the representable +infinity value, not an error. -/
theorem performance_summary_spec :
    (∀ (db : List ActualTrade) (s e : ℤ),
      (∀ t ∈ db, t.profit_loss = none) →
      get_performance_summary db s e = zeroSummary) ∧
    (get_performance_summary
        [⟨1, some 500⟩, ⟨2, some 500⟩, ⟨3, some (-1000)⟩] 0 10
      = { total_trades := 3, winning_trades := 2, losing_trades := 1, win_rate := 200/3,
          total_profit_loss := 0, average_profit := 500, average_loss := -1000,
          profit_factor := .val 1 }) ∧
    (∀ (db : List ActualTrade) (s e : ℤ),
      settledTradesInPeriod db s e ≠ [] →
      (((settledTradesInPeriod db s e).map (fun t => t.profit_loss.getD 0)).filter
          (fun x => decide (x < 0))).sum = 0 →
      (get_performance_summary db s e).profit_factor = PyFloat.inf) := by
  refine ⟨?_, ?_, ?_⟩
  · intro db s e h
    have hnil : settledTradesInPeriod db s e = [] := by
      simp only [settledTradesInPeriod, List.filter_eq_nil_iff]
      intro t ht
      simp [h t ht]
    simp [get_performance_summary, hnil]
  · have hset : settledTradesInPeriod
        [⟨1, some 500⟩, ⟨2, some 500⟩, ⟨3, some (-1000)⟩] 0 10
        = [⟨1, some 500⟩, ⟨2, some 500⟩, ⟨3, some (-1000)⟩] := by
      simp [settledTradesInPeriod]
    simp only [get_performance_summary, hset]
    norm_num [List.filter_cons, qabs, PerformanceSummary.mk.injEq]
  · intro db s e hne hsum
    have hempty : (settledTradesInPeriod db s e).isEmpty = false := by
      rcases Bool.eq_false_or_eq_true (settledTradesInPeriod db s e).isEmpty with h | h
      · exact absurd (List.isEmpty_iff.mp h) hne
      · exact h
    have hlosses := neg_filter_eq_nil_of_sum_eq_zero hsum
    simp only [get_performance_summary, hempty, Bool.false_eq_true, if_false, hlosses]
    norm_num [qabs]

/-- C5 witness: the all-unsettled case and the zero-realized-losses case at
concrete inputs. -/
theorem performance_summary_witness :
    get_performance_summary [⟨5, none⟩] 0 10 = zeroSummary ∧
    (get_performance_summary [⟨1, some 500⟩] 0 10).profit_factor = PyFloat.inf := by
  constructor
  · exact performance_summary_spec.1 [⟨5, none⟩] 0 10 (by
      intro t ht
      rw [List.mem_singleton] at ht
      subst ht
      rfl)
  · have hset : settledTradesInPeriod [⟨1, some 500⟩] 0 10 = [⟨1, some 500⟩] := by
      simp [settledTradesInPeriod]
    refine performance_summary_spec.2.2 [⟨1, some 500⟩] 0 10 ?_ ?_
    · rw [hset]
      simp
    · rw [hset]
      norm_num [List.filter_cons]

/-! ## Evaluation Orchestrator theorems -/

/-- C8: the synthesized summary joins, in order, the logic-quality phrase by
score bucket (≥4, ≥3, otherwise), the potential-outcome phrase by value
(>50, >0, otherwise), the realized-trade analysis exactly when the related
trade list is non-empty, and the improvement recommendation exactly when the
score is below 3; and when no related trade has a realized profit/loss, the
analysis reports the trade count as unsettled and computes no win rate. -/
theorem evaluation_summary_spec :
    (∀ (ls : ℤ) (pp : ℚ) (tr : List ActualTrade) (an : String),
      generate_evaluation_summary ls pp tr an
        = String.intercalate ". "
            ([if 4 ≤ ls then "推論ロジックは優秀"
              else if 3 ≤ ls then "推論ロジックは良好"
              else "推論ロジックに改善の余地あり",
              if 50 < pp then "高い利益ポテンシャル"
              else if 0 < pp then "正の利益ポテンシャル"
              else "リスクを伴う推論"]
              ++ (if tr ≠ [] then ["実績: " ++ an] else [])
              ++ (if ls < 3 then ["市場分析とリスク管理の強化を推奨"] else [])) ++ ".") ∧
    (∀ tr : List ActualTrade, tr ≠ [] → (∀ t ∈ tr, t.profit_loss = none) →
      analyze_actual_performance tr
        = "実行された取引数: " ++ toString tr.length ++ "件（未決済）") := by
  constructor
  · intro ls pp tr an
    rcases eq_or_ne tr [] with rfl | hne
    · simp only [generate_evaluation_summary, List.isEmpty_nil, if_true, ne_eq,
        not_true_eq_false, if_false]
      split_ifs <;> simp
    · have hempty : tr.isEmpty = false := by
        rcases Bool.eq_false_or_eq_true tr.isEmpty with h | h
        · exact absurd (List.isEmpty_iff.mp h) hne
        · exact h
      simp only [generate_evaluation_summary, hempty, Bool.false_eq_true, if_false, ne_eq,
        hne, not_false_eq_true, if_true]
      split_ifs <;> simp
  · intro tr hne hall
    have hempty : tr.isEmpty = false := by
      rcases Bool.eq_false_or_eq_true tr.isEmpty with h | h
      · exact absurd (List.isEmpty_iff.mp h) hne
      · exact h
    have hcompleted : tr.filter (fun t => t.profit_loss.isSome) = [] := by
      simp only [List.filter_eq_nil_iff]
      intro t ht
      simp [hall t ht]
    simp [analyze_actual_performance, hempty, hcompleted]

/-- C8 witness: a below-threshold score with a single unsettled related
trade exercises every conditional of the summary and the unsettled analysis
branch. -/
theorem evaluation_summary_witness :
    generate_evaluation_summary 2 60 [⟨1, none⟩] "X"
      = String.intercalate ". "
          (["推論ロジックに改善の余地あり", "高い利益ポテンシャル"]
            ++ ["実績: " ++ "X"] ++ ["市場分析とリスク管理の強化を推奨"]) ++ "." ∧
    analyze_actual_performance [⟨1, none⟩] = "実行された取引数: 1件（未決済）" := by
  constructor
  · have h := evaluation_summary_spec.1 2 60 [⟨1, none⟩] "X"
    rw [h]
    norm_num
  · have h := evaluation_summary_spec.2 [⟨1, none⟩] (by simp) (by
      intro t ht
      rw [List.mem_singleton] at ht
      subst ht
      rfl)
    rw [h]
    rfl

/-! ## Performance Aggregator B (ranking) theorems -/

/-- C7: `rankTop` restricts to evaluations having both a logic score and a
potential PnL; its output is the projection of the first `n` entries of the
stable descending sort of the candidate set by composite score; that sorted
list is ordered by non-increasing composite score; and for every composite
value the tied entries keep exactly their candidate-set (input) order, so
tied output order is stable and reproducible. -/
theorem rank_top_spec :
    (∀ (evaluations : List TradeEvaluation) (n : Nat),
      ∀ x ∈ get_top_performing_inferences evaluations n,
        ∃ ev ∈ evaluations, ev.logic_evaluation_score.isSome = true ∧
          ev.potential_profit_loss.isSome = true ∧ x = topProjection ev) ∧
    (∀ (evaluations : List TradeEvaluation) (n : Nat),
      get_top_performing_inferences evaluations n
        = ((sSort (fun a b =>
              decide (composite_score (scoredEvaluations evaluations) b
                ≤ composite_score (scoredEvaluations evaluations) a))
            (scoredEvaluations evaluations)).take n).map topProjection) ∧
    (∀ evaluations : List TradeEvaluation,
      (sSort (fun a b =>
          decide (composite_score (scoredEvaluations evaluations) b
            ≤ composite_score (scoredEvaluations evaluations) a))
        (scoredEvaluations evaluations)).Pairwise
        (fun a b => composite_score (scoredEvaluations evaluations) b
          ≤ composite_score (scoredEvaluations evaluations) a)) ∧
    (∀ (evaluations : List TradeEvaluation) (c : ℚ),
      (sSort (fun a b =>
          decide (composite_score (scoredEvaluations evaluations) b
            ≤ composite_score (scoredEvaluations evaluations) a))
        (scoredEvaluations evaluations)).filter
          (fun ev => decide (composite_score (scoredEvaluations evaluations) ev = c))
        = (scoredEvaluations evaluations).filter
            (fun ev => decide (composite_score (scoredEvaluations evaluations) ev = c))) := by
  have htrans : ∀ (scored : List TradeEvaluation) (a b c : TradeEvaluation),
      decide (composite_score scored b ≤ composite_score scored a) = true →
      decide (composite_score scored c ≤ composite_score scored b) = true →
      decide (composite_score scored c ≤ composite_score scored a) = true := by
    intro scored a b c hab hbc
    simp only [decide_eq_true_eq] at *
    linarith
  have htotal : ∀ (scored : List TradeEvaluation) (a b : TradeEvaluation),
      decide (composite_score scored b ≤ composite_score scored a) = true ∨
      decide (composite_score scored a ≤ composite_score scored b) = true := by
    intro scored a b
    simp only [decide_eq_true_eq]
    exact le_total _ _
  refine ⟨?_, ?_, ?_, ?_⟩
  · intro evaluations n x hx
    simp only [get_top_performing_inferences] at hx
    by_cases hsc : (scoredEvaluations evaluations).isEmpty = true
    · rw [if_pos hsc] at hx
      exact absurd hx (List.not_mem_nil x)
    · rw [if_neg hsc] at hx
      rcases List.mem_map.mp hx with ⟨ev, hev, hproj⟩
      have hev2 : ev ∈ scoredEvaluations evaluations :=
        (mem_sSort _ _ _).mp (List.mem_of_mem_take hev)
      rcases List.mem_filter.mp hev2 with ⟨hmem, hcond⟩
      rcases Bool.and_eq_true_iff.mp hcond with ⟨h1, h2⟩
      exact ⟨ev, hmem, h1, h2, hproj.symm⟩
  · intro evaluations n
    simp only [get_top_performing_inferences]
    by_cases hsc : (scoredEvaluations evaluations).isEmpty = true
    · rw [if_pos hsc, List.isEmpty_iff.mp hsc]
      simp [sSort]
    · rw [if_neg hsc]
  · intro evaluations
    have h := sSort_pairwise
      (fun a b => decide (composite_score (scoredEvaluations evaluations) b
        ≤ composite_score (scoredEvaluations evaluations) a))
      (htrans _) (htotal _) (scoredEvaluations evaluations)
    exact h.imp (fun hab => by simpa using hab)
  · intro evaluations c
    apply sSort_filter
    intro a b ha hb
    simp only [decide_eq_true_eq] at *
    rw [ha, hb]

/-- C7 witness: the restriction-and-projection part applied to a concrete
single-candidate input. -/
theorem rank_top_witness :
    ∃ ev ∈ [({ inference_id := 7, logic_evaluation_score := some 3,
               potential_profit_loss := some 10,
               evaluation_summary := "s".data } : TradeEvaluation)],
      ev.logic_evaluation_score.isSome = true ∧ ev.potential_profit_loss.isSome = true ∧
      topProjection { inference_id := 7, logic_evaluation_score := some 3,
                      potential_profit_loss := some 10,
                      evaluation_summary := "s".data } = topProjection ev := by
  apply rank_top_spec.1
    [{ inference_id := 7, logic_evaluation_score := some 3,
       potential_profit_loss := some 10, evaluation_summary := "s".data }] 3
  simp [get_top_performing_inferences, scoredEvaluations, sSort, sIns]

/-- C2 witness: the general part applied to the concrete −1h/+30min store;
the +30min row is in the window, has minimal distance, and heads the tie
filter. -/
theorem find_nearest_witness :
    (⟨2, 1800⟩ : TradeInference) ∈ [(⟨1, -3600⟩ : TradeInference), ⟨2, 1800⟩] ∧
    inWindow 0 2 ⟨2, 1800⟩ = true ∧
    (∀ j ∈ [(⟨1, -3600⟩ : TradeInference), ⟨2, 1800⟩],
      inWindow 0 2 j = true → timeDist 0 ⟨2, 1800⟩ ≤ timeDist 0 j) ∧
    (([(⟨1, -3600⟩ : TradeInference), ⟨2, 1800⟩].filter (inWindow 0 2)).filter
        (fun j => decide (timeDist 0 j = timeDist 0 ⟨2, 1800⟩))).head? = some ⟨2, 1800⟩ :=
  find_nearest_spec.2.1 [⟨1, -3600⟩, ⟨2, 1800⟩] 0 2 ⟨2, 1800⟩ (by decide)

/-! ## Action Extractor lemmas -/

theorem matchLitCI_length : ∀ (w s g r : List Char),
    matchLitCI w s = some (g, r) → g.length = w.length := by
  intro w
  induction w with
  | nil =>
    intro s g r h
    simp only [matchLitCI, Option.some.injEq, Prod.mk.injEq] at h
    simp [← h.1]
  | cons a ws ih =>
    intro s g r h
    cases s with
    | nil => simp [matchLitCI] at h
    | cons c cs =>
      simp only [matchLitCI] at h
      split at h
      · split at h
        · rename_i g2 r2 heq
          simp only [Option.some.injEq, Prod.mk.injEq] at h
          rw [← h.1, List.length_cons, List.length_cons, ih cs g2 r2 heq]
        · exact absurd h (by simp)
      · exact absurd h (by simp)

theorem matchAlt_length : ∀ (ws : List (List Char)) (s g r : List Char),
    matchAlt ws s = some (g, r) → ∃ w ∈ ws, g.length = w.length := by
  intro ws
  induction ws with
  | nil => intro s g r h; simp [matchAlt] at h
  | cons w rest ih =>
    intro s g r h
    simp only [matchAlt] at h
    split at h
    · rename_i gr heq
      rw [h] at heq
      exact ⟨w, List.mem_cons_self _ _, matchLitCI_length w s g r heq⟩
    · rcases ih s g r h with ⟨w2, hw2, hl⟩
      exact ⟨w2, List.mem_cons_of_mem _ hw2, hl⟩

theorem matchLetters_spec : ∀ (n : Nat) (s g r : List Char),
    matchLetters n s = some (g, r) →
      g.length = n ∧ ∀ c ∈ g, isAsciiLetterCI c = true := by
  intro n
  induction n with
  | zero =>
    intro s g r h
    simp only [matchLetters, Option.some.injEq, Prod.mk.injEq] at h
    rw [← h.1]
    simp
  | succ n ih =>
    intro s g r h
    cases s with
    | nil => simp [matchLetters] at h
    | cons c cs =>
      simp only [matchLetters] at h
      split at h
      · split at h
        · rename_i hcletter g2 r2 heq
          simp only [Option.some.injEq, Prod.mk.injEq] at h
          rcases ih cs g2 r2 heq with ⟨hlen, halpha⟩
          refine ⟨by rw [← h.1, List.length_cons, hlen], ?_⟩
          intro d hd
          rw [← h.1] at hd
          rcases List.mem_cons.mp hd with rfl | hd
          · assumption
          · exact halpha d hd
        · exact absurd h (by simp)
      · exact absurd h (by simp)

theorem tryPat1_shape (s g0 g1 r : List Char) (h : tryPat1 s = some ((g0, g1), r)) :
    g0.length ≠ 6 ∧ Alpha6 g1 := by
  simp only [tryPat1] at h
  split at h
  · exact absurd h (by simp)
  · rename_i g0' r1 halt
    split at h
    · exact absurd h (by simp)
    · rename_i r2 hsp
      split at h
      · exact absurd h (by simp)
      · rename_i g1' r3 hlet
        simp only [Option.some.injEq, Prod.mk.injEq] at h
        obtain ⟨⟨h0, h1⟩, _⟩ := h
        subst h0; subst h1
        rcases matchAlt_length _ _ _ _ halt with ⟨w, hw, hl⟩
        constructor
        · rcases List.mem_cons.mp hw with rfl | h
          · rw [hl]; decide
          · rcases List.mem_singleton.mp h with rfl
            rw [hl]; decide
        · exact matchLetters_spec 6 _ _ _ hlet

theorem tryPat2_shape (s g0 g1 r : List Char) (h : tryPat2 s = some ((g0, g1), r)) :
    Alpha6 g0 ∧ g1.length ≠ 6 := by
  simp only [tryPat2] at h
  split at h
  · exact absurd h (by simp)
  · rename_i g0' r1 hlet
    split at h
    · exact absurd h (by simp)
    · rename_i r2 hsp
      split at h
      · exact absurd h (by simp)
      · rename_i g1' r3 halt
        simp only [Option.some.injEq, Prod.mk.injEq] at h
        obtain ⟨⟨h0, h1⟩, _⟩ := h
        subst h0; subst h1
        refine ⟨matchLetters_spec 6 _ _ _ hlet, ?_⟩
        rcases matchAlt_length _ _ _ _ halt with ⟨w, hw, hl⟩
        rcases List.mem_cons.mp hw with rfl | h
        · rw [hl]; decide
        · rcases List.mem_singleton.mp h with rfl
          rw [hl]; decide

theorem tryPat3_shape (s g0 g1 r : List Char) (h : tryPat3 s = some ((g0, g1), r)) :
    g0.length ≠ 6 ∧ Alpha6 g1 := by
  simp only [tryPat3] at h
  split at h
  · exact absurd h (by simp)
  · rename_i c1 r1 hlit1
    split at h
    · exact absurd h (by simp)
    · rename_i c2 r2 hlit2
      split at h
      · exact absurd h (by simp)
      · rename_i g0' r3 halt
        split at h
        · exact absurd h (by simp)
        · rename_i g1' r4 hlet
          simp only [Option.some.injEq, Prod.mk.injEq] at h
          obtain ⟨⟨h0, h1⟩, _⟩ := h
          subst h0; subst h1
          constructor
          · rcases matchAlt_length _ _ _ _ halt with ⟨w, hw, hl⟩
            rcases List.mem_cons.mp hw with rfl | h
            · rw [hl]; decide
            · rcases List.mem_singleton.mp h with rfl
              rw [hl]; decide
          · exact matchLetters_spec 6 _ _ _ hlet

theorem tryPat4_shape (s g0 g1 r : List Char) (h : tryPat4 s = some ((g0, g1), r)) :
    Alpha6 g0 ∧ g1.length ≠ 6 := by
  simp only [tryPat4] at h
  split at h
  · exact absurd h (by simp)
  · rename_i g0' r1 hlet
    split at h
    · exact absurd h (by simp)
    · rename_i c2 r2 hlit
      split at h
      · exact absurd h (by simp)
      · rename_i g1' r3 halt
        simp only [Option.some.injEq, Prod.mk.injEq] at h
        obtain ⟨⟨h0, h1⟩, _⟩ := h
        subst h0; subst h1
        refine ⟨matchLetters_spec 6 _ _ _ hlet, ?_⟩
        rcases matchAlt_length _ _ _ _ halt with ⟨w, hw, hl⟩
        rcases List.mem_cons.mp hw with rfl | h
        · rw [hl]; decide
        · rcases List.mem_singleton.mp h with rfl
          rw [hl]; decide

theorem toUpper_isUpperAlpha {c : Char} (h : isAsciiLetterCI c = true) :
    isUpperAlpha c.toUpper = true := by
  simp only [isAsciiLetterCI, Bool.or_eq_true, Bool.and_eq_true, decide_eq_true_eq] at h
  simp only [isUpperAlpha, Bool.and_eq_true, decide_eq_true_eq]
  simp only [Char.toUpper]
  rcases h with ⟨h1, h2⟩ | ⟨h1, h2⟩
  · rw [if_neg (by omega)]
    exact ⟨h1, h2⟩
  · rw [if_pos (by omega)]
    have heq : (Char.ofNat (c.toNat - 32)).toNat = c.toNat - 32 := by
      have hv : (c.toNat - 32).isValidChar := Or.inl (by omega)
      rw [Char.ofNat, dif_pos hv]
      simp [Char.ofNatAux, Char.toNat, UInt32.ofNat', UInt32.toNat, BitVec.toNat_ofNatLt]
    rw [heq]
    omega

theorem upList_alpha {g : List Char} (hg : ∀ c ∈ g, isAsciiLetterCI c = true) :
    ∀ c ∈ upList g, isUpperAlpha c = true := by
  intro c hc
  rcases List.mem_map.mp hc with ⟨d, hd, rfl⟩
  exact toUpper_isUpperAlpha (hg d hd)

theorem upList_length (g : List Char) : (upList g).length = g.length :=
  List.length_map _ _

theorem processMatch_spec {text : List Char} {g : List Char × List Char}
    {ms me : Nat} {a : RawAction}
    (hshape : (Alpha6 g.1 ∧ g.2.length ≠ 6) ∨ (g.1.length ≠ 6 ∧ Alpha6 g.2))
    (h : processMatch text g ms me = some a) :
    (a.action = "BUY".data ∨ a.action = "SELL".data) ∧
    a.pair.length = 6 ∧ ∀ c ∈ a.pair, isUpperAlpha c = true := by
  obtain ⟨g0, g1⟩ := g
  simp only [processMatch] at h
  split at h
  · exact absurd h (by simp)
  · rename_i action pair hres
    split at h
    · rename_i hguard
      simp only [Option.some.injEq] at h
      have haction : a.action = action := by rw [← h]
      have hpairF : a.pair = pair := by rw [← h]
      have hpair6 : pair.length = 6 := by
        rcases Bool.and_eq_true_iff.mp hguard with ⟨_, h6⟩
        exact beq_iff_eq.mp h6
      simp only [resolveGroups] at hres
      split_ifs at hres with h1 h2 h3 h4 <;>
        simp only [Option.some.injEq, Prod.mk.injEq] at hres
      · -- groups[0] is the action token
        obtain ⟨ha, hp⟩ := hres
        have h1' : upList g0 = "BUY".data ∨ upList g0 = "SELL".data := by
          simpa using h1
        have hg1 : g1.length = 6 := by
          rw [← upList_length g1, hp, hpair6]
        rcases hshape with ⟨_, hne⟩ | ⟨_, hA⟩
        · exact absurd hg1 hne
        · refine ⟨?_, ?_, ?_⟩
          · rw [haction, ← ha]; exact h1'
          · rw [hpairF]; exact hpair6
          · rw [hpairF, ← hp]; exact upList_alpha hA.2
      · -- groups[1] is the action token
        obtain ⟨ha, hp⟩ := hres
        have h2' : upList g1 = "BUY".data ∨ upList g1 = "SELL".data := by
          simpa using h2
        have hg0 : g0.length = 6 := by
          rw [← upList_length g0, hp, hpair6]
        rcases hshape with ⟨hA, _⟩ | ⟨hne, _⟩
        · refine ⟨?_, ?_, ?_⟩
          · rw [haction, ← ha]; exact h2'
          · rw [hpairF]; exact hpair6
          · rw [hpairF, ← hp]; exact upList_alpha hA.2
        · exact absurd hg0 hne
      · -- Japanese buy verb in groups[0]
        obtain ⟨ha, hp⟩ := hres
        have hg1 : g1.length = 6 := by
          rw [← upList_length g1, hp, hpair6]
        rcases hshape with ⟨_, hne⟩ | ⟨_, hA⟩
        · exact absurd hg1 hne
        · refine ⟨Or.inl (by rw [haction, ← ha]), by rw [hpairF]; exact hpair6, ?_⟩
          rw [hpairF, ← hp]
          exact upList_alpha hA.2
      · -- Japanese sell verb in groups[0]
        obtain ⟨ha, hp⟩ := hres
        have hg1 : g1.length = 6 := by
          rw [← upList_length g1, hp, hpair6]
        rcases hshape with ⟨_, hne⟩ | ⟨_, hA⟩
        · exact absurd hg1 hne
        · refine ⟨Or.inr (by rw [haction, ← ha]), by rw [hpairF]; exact hpair6, ?_⟩
          rw [hpairF, ← hp]
          exact upList_alpha hA.2
    · exact absurd h (by simp)

theorem finditerAux_groups {f : List Char → Option ((List Char × List Char) × List Char)}
    {Q : List Char × List Char → Prop}
    (hf : ∀ s gr r, f s = some (gr, r) → Q gr) :
    ∀ (fuel : Nat) (s : List Char) (pos : Nat), ∀ m ∈ finditerAux f fuel s pos, Q m.1 := by
  intro fuel
  induction fuel with
  | zero => intro s pos m hm; simp [finditerAux] at hm
  | succ n ih =>
    intro s pos m hm
    cases s with
    | nil => simp [finditerAux] at hm
    | cons c cs =>
      simp only [finditerAux] at hm
      split at hm
      · rename_i g rest heq
        rcases List.mem_cons.mp hm with rfl | hm2
        · exact hf _ _ _ heq
        · exact ih _ _ _ hm2
      · exact ih _ _ _ hm

theorem matchesFor_spec (f : List Char → Option ((List Char × List Char) × List Char))
    (hf : ∀ s g0 g1 r, f s = some ((g0, g1), r) →
      (Alpha6 g0 ∧ g1.length ≠ 6) ∨ (g0.length ≠ 6 ∧ Alpha6 g1))
    (text : List Char) :
    ∀ a ∈ matchesFor f text,
      (a.action = "BUY".data ∨ a.action = "SELL".data) ∧
      a.pair.length = 6 ∧ ∀ c ∈ a.pair, isUpperAlpha c = true := by
  intro a ha
  simp only [matchesFor, finditer, List.mem_filterMap] at ha
  rcases ha with ⟨m, hm, hpm⟩
  have hQ := finditerAux_groups
    (Q := fun gr => (Alpha6 gr.1 ∧ gr.2.length ≠ 6) ∨ (gr.1.length ≠ 6 ∧ Alpha6 gr.2))
    (fun s gr r hh => by obtain ⟨g0, g1⟩ := gr; exact hf s g0 g1 r hh)
    text.length text 0 m hm
  exact processMatch_spec hQ hpm

theorem rawActions_spec (text : List Char) :
    ∀ a ∈ rawActions text,
      (a.action = "BUY".data ∨ a.action = "SELL".data) ∧
      a.pair.length = 6 ∧ ∀ c ∈ a.pair, isUpperAlpha c = true := by
  intro a ha
  simp only [rawActions, List.mem_append] at ha
  rcases ha with ((h | h) | h) | h
  · exact matchesFor_spec tryPat1
      (fun s g0 g1 r hh => Or.inr (tryPat1_shape s g0 g1 r hh)) text a h
  · exact matchesFor_spec tryPat2
      (fun s g0 g1 r hh => Or.inl (tryPat2_shape s g0 g1 r hh)) text a h
  · exact matchesFor_spec tryPat3
      (fun s g0 g1 r hh => Or.inr (tryPat3_shape s g0 g1 r hh)) text a h
  · exact matchesFor_spec tryPat4
      (fun s g0 g1 r hh => Or.inl (tryPat4_shape s g0 g1 r hh)) text a h

theorem dedupByPair_mem : ∀ (l : List RawAction) (seen : List (List Char)) (a : OutAction),
    a ∈ dedupByPair l seen → ∃ b ∈ l, a = projAction b := by
  intro l
  induction l with
  | nil => intro seen a ha; simp [dedupByPair] at ha
  | cons x xs ih =>
    intro seen a ha
    simp only [dedupByPair] at ha
    split at ha
    · rcases ih _ _ ha with ⟨b, hb, hab⟩
      exact ⟨b, List.mem_cons_of_mem _ hb, hab⟩
    · rcases List.mem_cons.mp ha with rfl | ha2
      · exact ⟨x, List.mem_cons_self _ _, rfl⟩
      · rcases ih _ _ ha2 with ⟨b, hb, hab⟩
        exact ⟨b, List.mem_cons_of_mem _ hb, hab⟩

theorem dedupByPair_notSeen : ∀ (l : List RawAction) (seen : List (List Char)) (a : OutAction),
    a ∈ dedupByPair l seen → a.pair ∉ seen := by
  intro l
  induction l with
  | nil => intro seen a ha; simp [dedupByPair] at ha
  | cons x xs ih =>
    intro seen a ha
    simp only [dedupByPair] at ha
    split at ha
    · exact ih _ _ ha
    · rename_i hxs
      rcases List.mem_cons.mp ha with rfl | ha2
      · exact hxs
      · have h2 := ih _ _ ha2
        exact fun hc => h2 (List.mem_cons_of_mem _ hc)

theorem dedupByPair_distinct : ∀ (l : List RawAction) (seen : List (List Char)),
    (dedupByPair l seen).Pairwise (fun x y => x.pair ≠ y.pair) := by
  intro l
  induction l with
  | nil => intro seen; simp [dedupByPair]
  | cons x xs ih =>
    intro seen
    simp only [dedupByPair]
    split
    · exact ih _
    · refine List.Pairwise.cons ?_ (ih _)
      intro y hy hc
      have h2 := dedupByPair_notSeen _ _ _ hy
      exact h2 (by rw [← hc]; exact List.mem_cons_self _ _)

theorem dedupByPair_sublist : ∀ (l : List RawAction) (seen : List (List Char)),
    ∃ l2 : List RawAction, l2.Sublist l ∧ dedupByPair l seen = l2.map projAction := by
  intro l
  induction l with
  | nil => intro seen; exact ⟨[], List.Sublist.refl _, rfl⟩
  | cons x xs ih =>
    intro seen
    simp only [dedupByPair]
    split
    · rcases ih seen with ⟨l2, hs, he⟩
      exact ⟨l2, hs.cons x, he⟩
    · rcases ih (x.pair :: seen) with ⟨l2, hs, he⟩
      exact ⟨x :: l2, hs.cons₂ x, by rw [List.map_cons, ← he]⟩

theorem dedupByPair_max : ∀ l : List RawAction,
    l.Pairwise (fun x y => y.confidence ≤ x.confidence) →
    ∀ (seen : List (List Char)) (a : OutAction), a ∈ dedupByPair l seen →
      ∀ b ∈ l, b.pair = a.pair → b.confidence ≤ a.confidence := by
  intro l
  induction l with
  | nil => intro _ seen a ha; simp [dedupByPair] at ha
  | cons x xs ih =>
    intro hp seen a ha b hb hbp
    rw [List.pairwise_cons] at hp
    simp only [dedupByPair] at ha
    split at ha
    · rename_i hseen
      rcases List.mem_cons.mp hb with rfl | hb2
      · have hnot := dedupByPair_notSeen _ _ _ ha
        rw [← hbp] at hnot
        exact absurd hseen hnot
      · exact ih hp.2 _ _ ha b hb2 hbp
    · rcases List.mem_cons.mp ha with rfl | ha2
      · rcases List.mem_cons.mp hb with rfl | hb2
        · exact le_refl _
        · exact hp.1 b hb2
      · rcases List.mem_cons.mp hb with rfl | hb2
        · have hnot := dedupByPair_notSeen _ _ _ ha2
          exact absurd (by rw [← hbp]; exact List.mem_cons_self _ _) hnot
        · exact ih hp.2 _ _ ha2 b hb2 hbp

/-- C4: every entry returned by `parse_inference_response` has an instrument
of exactly 6 (uppercase ASCII, hence alphabetic) characters and an action of
BUY or SELL; the entry kept for an instrument carries the maximal confidence
among all raw matches for that instrument; the list is ordered by descending
confidence; and it contains at most one entry per instrument. -/
theorem extract_spec (text : List Char) :
    (∀ a ∈ parse_inference_response text,
      (a.action = "BUY".data ∨ a.action = "SELL".data) ∧
      a.pair.length = 6 ∧ (∀ c ∈ a.pair, isUpperAlpha c = true) ∧
      (∀ b ∈ rawActions text, b.pair = a.pair → b.confidence ≤ a.confidence)) ∧
    (parse_inference_response text).Pairwise
      (fun x y => y.confidence ≤ x.confidence) ∧
    (parse_inference_response text).Pairwise (fun x y => x.pair ≠ y.pair) := by
  have htrans : ∀ a b c : RawAction,
      decide (b.confidence ≤ a.confidence) = true →
      decide (c.confidence ≤ b.confidence) = true →
      decide (c.confidence ≤ a.confidence) = true := by
    intro a b c h1 h2
    simp only [decide_eq_true_eq] at *
    linarith
  have htotal : ∀ a b : RawAction,
      decide (b.confidence ≤ a.confidence) = true ∨
      decide (a.confidence ≤ b.confidence) = true := by
    intro a b
    simp only [decide_eq_true_eq]
    exact le_total _ _
  have hsorted2 :
      (sSort (fun a b : RawAction => decide (b.confidence ≤ a.confidence))
        (rawActions text)).Pairwise (fun x y : RawAction => y.confidence ≤ x.confidence) := by
    have h := sSort_pairwise (fun a b : RawAction => decide (b.confidence ≤ a.confidence))
      htrans htotal (rawActions text)
    exact h.imp (fun hab => by simpa using hab)
  refine ⟨?_, ?_, ?_⟩
  · intro a ha
    rcases dedupByPair_mem _ _ _ ha with ⟨b, hb, hab⟩
    have hbraw : b ∈ rawActions text := (mem_sSort _ _ _).mp hb
    rcases rawActions_spec text b hbraw with ⟨hact, hlen, halpha⟩
    refine ⟨by rw [hab]; exact hact, by rw [hab]; exact hlen,
      by rw [hab]; exact halpha, ?_⟩
    intro c hc hcp
    have hcs : c ∈ sSort (fun a b : RawAction => decide (b.confidence ≤ a.confidence))
        (rawActions text) := (mem_sSort _ _ _).mpr hc
    exact dedupByPair_max _ hsorted2 [] a ha c hcs hcp
  · rcases dedupByPair_sublist
      (sSort (fun a b : RawAction => decide (b.confidence ≤ a.confidence))
        (rawActions text)) [] with ⟨l2, hs, he⟩
    show (dedupByPair _ []).Pairwise _
    rw [he, List.pairwise_map]
    exact (hsorted2.sublist hs).imp (fun h => h)
  · exact dedupByPair_distinct _ _

/-- C4 witness: the theorem applied to the text "BUY USDJPY", whose single
extracted entry is BUY USDJPY at the base confidence. -/
theorem extract_witness :
    (((⟨"BUY".data, "USDJPY".data,
        estimate_confidence "BUY USDJPY".data 0 10⟩ : OutAction).action = "BUY".data ∨
      (⟨"BUY".data, "USDJPY".data,
        estimate_confidence "BUY USDJPY".data 0 10⟩ : OutAction).action = "SELL".data) ∧
    (⟨"BUY".data, "USDJPY".data,
      estimate_confidence "BUY USDJPY".data 0 10⟩ : OutAction).pair.length = 6 ∧
    (∀ c ∈ (⟨"BUY".data, "USDJPY".data,
      estimate_confidence "BUY USDJPY".data 0 10⟩ : OutAction).pair, isUpperAlpha c = true) ∧
    (∀ b ∈ rawActions "BUY USDJPY".data,
      b.pair = (⟨"BUY".data, "USDJPY".data,
        estimate_confidence "BUY USDJPY".data 0 10⟩ : OutAction).pair →
      b.confidence ≤ (⟨"BUY".data, "USDJPY".data,
        estimate_confidence "BUY USDJPY".data 0 10⟩ : OutAction).confidence)) := by
  have hmem : (⟨"BUY".data, "USDJPY".data,
      estimate_confidence "BUY USDJPY".data 0 10⟩ : OutAction)
      ∈ parse_inference_response "BUY USDJPY".data := by
    have hp : parse_inference_response "BUY USDJPY".data
        = [⟨"BUY".data, "USDJPY".data, estimate_confidence "BUY USDJPY".data 0 10⟩] := rfl
    rw [hp]
    exact List.mem_singleton.mpr rfl
  exact (extract_spec "BUY USDJPY".data).1 _ hmem

end ForexEval
